import Mathlib

/-!
# RecursiveFileCommentary: the `@ts-nocheck` inserter (`main.go`)

A shallow embedding of `main.go` and of the Go library functions it calls.

Text is modelled as a sequence of Unicode code points (`List Char`): a Go
string holding valid UTF-8.  A file's content is such a sequence as well.
The file system sends each path to the file it leads to, so that several paths
(symbolic links, hard links) may name one file.
-/

namespace RecursiveFileCommentary

/-- Go strings, as sequences of code points. -/
abbrev GoString := List Char

/-! ## Library functions used by `main.go` -/

/-- Go `unicode.IsSpace`: the Latin-1 cases `'\t', '\n', '\v', '\f', '\r', ' ',
U+0085, U+00A0`, and above Latin-1 the `White_Space` table. -/
def isSpace (c : Char) : Bool :=
  let n := c.toNat
  (0x09 ≤ n && n ≤ 0x0D) || n == 0x20 || n == 0x85 || n == 0xA0 ||
  n == 0x1680 || (0x2000 ≤ n && n ≤ 0x200A) || n == 0x2028 || n == 0x2029 ||
  n == 0x202F || n == 0x205F || n == 0x3000

/-- Removal of the trailing white space of a string. -/
def trimRight (s : GoString) : GoString :=
  (s.reverse.dropWhile isSpace).reverse

/-- Go `strings.TrimSpace`: the string without its leading and trailing white space. -/
def TrimSpace (s : GoString) : GoString :=
  trimRight (s.dropWhile isSpace)

/-- Go `strings.HasPrefix`. -/
def HasPrefix (s pre : GoString) : Bool :=
  pre.length ≤ s.length && s.take pre.length == pre

/-- Go `bufio.ScanLines` helper `dropCR`: drops one trailing carriage return. -/
def dropCR (data : GoString) : GoString :=
  if data.getLast? = some '\r' then data.dropLast else data

/-- The tokens `bufio.ScanLines` cuts out of the whole input before `dropCR`:
every newline ends a token, a non-empty remainder at end of input is a last
token, and an empty remainder is none. -/
def splitLines : GoString → List GoString
  | [] => []
  | c :: cs =>
    if c = '\n' then [] :: splitLines cs
    else
      match splitLines cs with
      | [] => [[c]]
      | l :: ls => (c :: l) :: ls

/-- Size in bytes of the UTF-8 encoding of a string (Go `len`). -/
def byteLen (s : GoString) : Nat :=
  (s.map Char.utf8Size).sum

/-- Go `bufio.MaxScanTokenSize`, the size of the scanner's buffer. -/
def MaxScanTokenSize : Nat := 64 * 1024

/-- The read loop `for scanner.Scan() { lines = append(lines, scanner.Text()) }`
followed by `scanner.Err()`: `none` when a line does not fit the scanner's
buffer together with its line end (`bufio.ErrTooLong`), else the lines, each
without its newline and without one carriage return before it. -/
def scanFile (content : GoString) : Option (List GoString) :=
  if (splitLines content).all (fun l => byteLen l < MaxScanTokenSize) then
    some ((splitLines content).map dropCR)
  else none

/-! ## `main.go` -/

/-- The constant `tsNoCheckComment` (main.go:12). -/
def tsNoCheckComment : GoString :=
  "// @ts-nocheck // ts-nocheck automatically added by pleasenocheck script".toList

/-- The marker check loop (main.go:110-117): `true` at the first line whose
trimmed text is the marker. -/
def hasNoCheck : List GoString → Bool
  | [] => false
  | line :: rest =>
    if TrimSpace line = tsNoCheckComment then true else hasNoCheck rest

/-- The condition of main.go:133 on a line. -/
def skipLine (line : GoString) : Bool :=
  let trimmed := TrimSpace line
  trimmed == [] || HasPrefix trimmed "//".toList || HasPrefix trimmed "/*".toList

/-- A line of "real code" in the words of the specification: its trimmed text
is non-empty and begins with neither `//` nor `/*`. -/
def isCodeLine (line : GoString) : Prop :=
  TrimSpace line ≠ [] ∧ ¬ "//".toList <+: TrimSpace line ∧ ¬ "/*".toList <+: TrimSpace line

instance (line : GoString) : Decidable (isCodeLine line) := by
  unfold isCodeLine; infer_instance

/-- The loop of main.go:129-140 from line number `i` on, with the current
value of `insertIndex`: a skipped line sets it to `i + 1`, the first other
line ends the loop. -/
def insertIndexLoop : List GoString → Nat → Nat → Nat
  | [], _, insertIndex => insertIndex
  | line :: rest, i, insertIndex =>
    if skipLine line then insertIndexLoop rest (i + 1) (i + 1)
    else insertIndex

/-- The insertion index of main.go:126-140. -/
def insertIndex (lines : List GoString) : Nat :=
  insertIndexLoop lines 0 0

/-- The slice `newLines` of main.go:143-152 for an insertion index `k`. In Go
the slice expressions `lines[:k]` and `lines[k:]` need `k ≤ len(lines)`, which
`insertIndex_le_length` gives for the index the program uses. -/
def newLines (lines : List GoString) (k : Nat) : List GoString :=
  lines.take k ++ [tsNoCheckComment] ++ lines.drop k

/-- The text handed to the writer by main.go:163-169: each line followed by a newline. -/
def writeLines (lines : List GoString) : GoString :=
  (lines.map (fun line => line ++ ['\n'])).flatten

/-- The file system as the program sees it.  `os.Open` and `os.Create` follow
symbolic links, and hard links give one file several names, so a path leads to
a file and the content belongs to the file. -/
structure FileSys where
  /-- The file (its inode number) that opening or creating a path reaches,
  links followed. -/
  inode : GoString → Nat
  /-- The content of each file, `none` where the file cannot be opened. -/
  data : Nat → Option GoString

/-- What `os.Open` followed by reading gives at a path. -/
def FileSys.read (fs : FileSys) (path : GoString) : Option GoString :=
  fs.data (fs.inode path)

/-- The file system after `os.Create` at a path of an existing file and the
writes that leave `out` in it: the file the path leads to holds `out`. -/
def FileSys.write (fs : FileSys) (path out : GoString) : FileSys :=
  { fs with data := Function.update fs.data (fs.inode path) (some out) }

/-- What the host does with the write-back of one `processFile` call. -/
structure WriteEnv where
  /-- Whether `os.Create` succeeds. -/
  createOk : Bool
  /-- With `some n` the file takes `n` characters and the next write fails;
  with `none` every write and the final flush succeed. -/
  failAfter : Option Nat

/-- A host on which creating and writing never fail. -/
def WriteEnv.ok : WriteEnv := ⟨true, none⟩

/-- The function `processFile` (main.go:87-179): the returned boolean and the
file system it leaves. -/
def processFile (fs : FileSys) (env : WriteEnv) (filePath : GoString) : Bool × FileSys :=
  match fs.read filePath with
  | none => (false, fs)
  | some content =>
    match scanFile content with
    | none => (false, fs)
    | some lines =>
      if hasNoCheck lines then (true, fs)
      else
        let out := writeLines (newLines lines (insertIndex lines))
        if env.createOk then
          match env.failAfter with
          | none => (true, fs.write filePath out)
          | some n =>
            if n < out.length then (false, fs.write filePath (out.take n))
            else (true, fs.write filePath out)
        else (false, fs)

/-- The parts of the Go runtime that `main.go` relies on and that depend on
the host or on tables outside the program. -/
structure Host where
  /-- Whether `os.IsPathSeparator` also accepts the backslash (Windows). -/
  windows : Bool
  /-- The map `unicode.ToLower` on the code points above ASCII. -/
  lowerTable : Char → Char

/-- Go `os.IsPathSeparator`. -/
def IsPathSeparator (h : Host) (c : Char) : Bool :=
  c == '/' || (h.windows && c == '\\')

/-- Go `unicode.ToLower`: on ASCII the letters `A`-`Z` move to `a`-`z`, above
ASCII the case table decides. -/
def toLowerRune (h : Host) (c : Char) : Char :=
  if c.toNat < 128 then
    if 'A'.toNat ≤ c.toNat ∧ c.toNat ≤ 'Z'.toNat then Char.ofNat (c.toNat + 32) else c
  else h.lowerTable c

/-- Go `strings.ToLower`. -/
def ToLower (h : Host) (s : GoString) : GoString :=
  s.map (toLowerRune h)

/-- The loop of Go `filepath.Ext` over the characters from the last one
backwards; `acc` is the part of the path already passed. -/
def extLoop (h : Host) : List Char → GoString → GoString
  | [], _ => []
  | c :: before, acc =>
    if IsPathSeparator h c then []
    else if c = '.' then c :: acc
    else extLoop h before (c :: acc)

/-- Go `filepath.Ext`: the suffix from the last dot of the last path element, or empty. -/
def Ext (h : Host) (path : GoString) : GoString :=
  extLoop h path.reverse []

/-- The test of main.go:41-42. -/
def hasTsExt (h : Host) (path : GoString) : Bool :=
  let ext := ToLower h (Ext h path)
  ext == ".ts".toList || ext == ".tsx".toList

/-- The file name of a path in the words of the specification: its last
element, the characters after the last path separator. -/
def fileName (h : Host) (path : GoString) : GoString :=
  (path.reverse.takeWhile (fun c => !IsPathSeparator h c)).reverse

/-- The substring after the last `.` of a name in the words of the
specification; `none` when the name has no dot. -/
def afterLastDot (name : GoString) : Option GoString :=
  if '.' ∈ name then some (name.reverse.takeWhile (fun c => c != '.')).reverse else none

/-- One call of the walk function by `filepath.Walk`: the path, whether the
entry is a directory, and whether the walk reports an error for it. -/
structure WalkEntry where
  path : GoString
  isDir : Bool
  err : Bool

/-- The variables the walk function updates, with the file system. -/
structure WalkState where
  fs : FileSys
  processedFiles : List GoString
  errorFiles : List GoString

/-- The walk function (main.go:29-51). -/
def walkFn (h : Host) (env : GoString → WriteEnv) (st : WalkState) (e : WalkEntry) :
    WalkState :=
  if e.err then st
  else if e.isDir then st
  else if hasTsExt h e.path then
    let r := processFile st.fs (env e.path) e.path
    if r.1 then { st with fs := r.2, processedFiles := st.processedFiles ++ [e.path] }
    else { st with fs := r.2, errorFiles := st.errorFiles ++ [e.path] }
  else st

/-- The run of `filepath.Walk` over the entries it visits, in its order. -/
def walk (h : Host) (env : GoString → WriteEnv) (entries : List WalkEntry)
    (st : WalkState) : WalkState :=
  entries.foldl (walkFn h env) st

/-! ## Sample trees -/

/-- A file system in which every path leads to one file with the given content. -/
def singleFile (content : GoString) : FileSys :=
  ⟨fun _ => 0, fun _ => some content⟩

/-- A host with `/` as only separator and a case table that moves nothing above ASCII. -/
def sampleHost : Host := ⟨false, id⟩

/-- The directory `/w` with `a.ts` (no marker), `b.tsx` (has the marker) and
`c.js`, three files under one name each. -/
def sampleFs : FileSys where
  inode := fun p =>
    if p = "/w/a.ts".toList then 1
    else if p = "/w/b.tsx".toList then 2
    else if p = "/w/c.js".toList then 3
    else 0
  data := fun i =>
    if i = 1 then some "const x = 1;\n".toList
    else if i = 2 then some (tsNoCheckComment ++ "\nlet y;\n".toList)
    else if i = 3 then some "var z;\n".toList
    else none

/-- The entries `filepath.Walk` visits in `/w`, in lexical order. -/
def sampleEntries : List WalkEntry :=
  [⟨"/w".toList, true, false⟩, ⟨"/w/a.ts".toList, false, false⟩,
   ⟨"/w/b.tsx".toList, false, false⟩, ⟨"/w/c.js".toList, false, false⟩]

/-- The directory `/w` with the file `c.js` and a symbolic link `link.ts` to it:
both paths lead to file 1. -/
def linkedFs : FileSys where
  inode := fun p =>
    if p = "/w/c.js".toList then 1
    else if p = "/w/link.ts".toList then 1
    else 0
  data := fun i => if i = 1 then some "var z;\n".toList else none

/-- The entries `filepath.Walk` visits in that directory; it reports the link,
which it does not follow, as an entry that is no directory. -/
def linkedEntries : List WalkEntry :=
  [⟨"/w".toList, true, false⟩, ⟨"/w/c.js".toList, false, false⟩,
   ⟨"/w/link.ts".toList, false, false⟩]

/-! ## Library lemmas -/

theorem hasPrefix_iff (s pre : GoString) : HasPrefix s pre = true ↔ pre <+: s := by
  unfold HasPrefix
  rw [List.prefix_iff_eq_take]
  constructor
  · intro h
    simp only [Bool.and_eq_true, decide_eq_true_eq, beq_iff_eq] at h
    exact h.2.symm
  · intro h
    simp only [Bool.and_eq_true, decide_eq_true_eq, beq_iff_eq]
    refine ⟨?_, h.symm⟩
    have := congrArg List.length h
    simp only [List.length_take] at this
    omega

theorem filter_dropWhile_not {α : Type} (p : α → Bool) (l : List α) :
    (l.dropWhile p).filter (fun a => !p a) = l.filter (fun a => !p a) := by
  induction l with
  | nil => rfl
  | cons a t ih =>
    by_cases h : p a = true
    · simp [List.dropWhile_cons, h, List.filter_cons, ih]
    · simp [List.dropWhile_cons, h]

theorem filter_trimRight (s : GoString) :
    (trimRight s).filter (fun c => !isSpace c) = s.filter (fun c => !isSpace c) := by
  unfold trimRight
  rw [List.filter_reverse, filter_dropWhile_not, ← List.filter_reverse, List.reverse_reverse]

/-- Trimming keeps every character that is not white space, in order. -/
theorem filter_TrimSpace (s : GoString) :
    (TrimSpace s).filter (fun c => !isSpace c) = s.filter (fun c => !isSpace c) := by
  unfold TrimSpace
  rw [filter_trimRight, filter_dropWhile_not]

/-! ## The insertion index -/

theorem insertIndexLoop_eq (lines : List GoString) (i : Nat) :
    insertIndexLoop lines i i = i + (lines.takeWhile skipLine).length := by
  induction lines generalizing i with
  | nil => simp [insertIndexLoop]
  | cons line rest ih =>
    by_cases h : skipLine line = true
    · simp [insertIndexLoop, h, ih, List.takeWhile_cons]; omega
    · simp [insertIndexLoop, h, List.takeWhile_cons]

theorem insertIndex_eq_takeWhile (lines : List GoString) :
    insertIndex lines = (lines.takeWhile skipLine).length := by
  simp [insertIndex, insertIndexLoop_eq]

theorem insertIndex_le_length (lines : List GoString) :
    insertIndex lines ≤ lines.length := by
  rw [insertIndex_eq_takeWhile]
  exact (List.takeWhile_sublist _).length_le

theorem skipLine_eq_false_iff (line : GoString) : skipLine line = false ↔ isCodeLine line := by
  unfold skipLine isCodeLine
  simp only [Bool.or_eq_false_iff, beq_eq_false_iff_ne, ne_eq]
  rw [← hasPrefix_iff, ← hasPrefix_iff]
  simp [and_assoc]

theorem skipLine_eq_true_iff (line : GoString) : skipLine line = true ↔ ¬ isCodeLine line := by
  rw [← skipLine_eq_false_iff]; simp

theorem takeWhile_length_get {α : Type} (p : α → Bool) (l : List α) (i : Nat)
    (hi : i < l.length) (h : i < (l.takeWhile p).length) : p l[i] = true := by
  induction l generalizing i with
  | nil => simp at hi
  | cons a t ih =>
    by_cases ha : p a = true
    · cases i with
      | zero => simpa using ha
      | succ n =>
        simp only [List.takeWhile_cons, ha, if_true, List.length_cons] at h
        simp only [List.length_cons] at hi
        simpa using ih n (by omega) (by omega)
    · simp [List.takeWhile_cons, ha] at h

theorem takeWhile_length_stop {α : Type} (p : α → Bool) (l : List α)
    (h : (l.takeWhile p).length < l.length) : p l[(l.takeWhile p).length] = false := by
  induction l with
  | nil => simp at h
  | cons a t ih =>
    by_cases ha : p a = true
    · simp only [List.takeWhile_cons, ha, if_true, List.length_cons] at h ⊢
      simpa using ih (by omega)
    · simp only [List.takeWhile_cons, ha]
      simpa using ha

theorem takeWhile_length_eq_findIdx {α : Type} (p : α → Bool) (l : List α) :
    (l.takeWhile p).length = l.findIdx (fun a => !p a) := by
  induction l with
  | nil => rfl
  | cons a t ih =>
    by_cases ha : p a = true
    · simp [List.takeWhile_cons, List.findIdx_cons, ha, ih]
    · simp [List.takeWhile_cons, List.findIdx_cons, ha]

theorem insertIndex_skips (lines : List GoString) (i : Nat) (hi : i < lines.length)
    (h : i < insertIndex lines) : skipLine lines[i] = true := by
  rw [insertIndex_eq_takeWhile] at h
  exact takeWhile_length_get skipLine lines i hi h

theorem insertIndex_stops (lines : List GoString) (h : insertIndex lines < lines.length) :
    skipLine lines[insertIndex lines] = false := by
  have h2 : (lines.takeWhile skipLine).length < lines.length := by
    rw [← insertIndex_eq_takeWhile]; exact h
  have := takeWhile_length_stop skipLine lines h2
  simpa [insertIndex_eq_takeWhile] using this

theorem insertIndex_unique (lines : List GoString) (j : Nat) (hj : j ≤ lines.length)
    (hbefore : ∀ i (hi : i < lines.length), i < j → skipLine lines[i] = true)
    (hstop : ∀ hlt : j < lines.length, skipLine lines[j] = false) :
    insertIndex lines = j := by
  rcases Nat.lt_trichotomy (insertIndex lines) j with h | h | h
  · have hk : insertIndex lines < lines.length := by omega
    have h1 := insertIndex_stops lines hk
    have h2 := hbefore (insertIndex lines) hk h
    rw [h1] at h2; cases h2
  · exact h
  · have hlt : j < lines.length := by
      have := insertIndex_le_length lines; omega
    have h1 := insertIndex_skips lines j hlt h
    rw [hstop hlt] at h1; cases h1

/-! ## The new line sequence -/

theorem newLines_length (lines : List GoString) (k : Nat) :
    (newLines lines k).length = lines.length + 1 := by
  simp only [newLines, List.length_append, List.length_take, List.length_drop,
    List.length_singleton]
  omega

theorem newLines_eraseIdx (lines : List GoString) (k : Nat) (hk : k ≤ lines.length) :
    (newLines lines k).eraseIdx k = lines := by
  have hlen : (lines.take k).length = k := by simp [List.length_take, hk]
  unfold newLines
  rw [List.append_assoc, List.eraseIdx_append_of_length_le (by omega)]
  simp [hlen]

theorem newLines_getElem? (lines : List GoString) (k : Nat) (hk : k ≤ lines.length) :
    (newLines lines k)[k]? = some tsNoCheckComment := by
  have hlen : (lines.take k).length = k := by simp [List.length_take, hk]
  unfold newLines
  rw [List.append_assoc, List.getElem?_append_right (by omega)]
  simp [hlen]

/-! ## Marker detection -/

theorem hasNoCheck_iff (lines : List GoString) :
    hasNoCheck lines = true ↔ ∃ line ∈ lines, TrimSpace line = tsNoCheckComment := by
  induction lines with
  | nil => simp [hasNoCheck]
  | cons line rest ih =>
    by_cases h : TrimSpace line = tsNoCheckComment
    · simp [hasNoCheck, h]
    · simp [hasNoCheck, h, ih]

theorem dropWhile_append_of_all {α : Type} (p : α → Bool) (a b : List α)
    (h : ∀ x ∈ a, p x = true) : (a ++ b).dropWhile p = b.dropWhile p := by
  induction a with
  | nil => rfl
  | cons x t ih =>
    have hx : p x = true := h x (List.mem_cons_self _ _)
    simp only [List.cons_append, List.dropWhile_cons, hx, if_true]
    exact ih (fun y hy => h y (List.mem_cons_of_mem _ hy))

theorem trimSpace_marker_padded (ws1 ws2 : GoString) (h1 : ∀ c ∈ ws1, isSpace c = true)
    (h2 : ∀ c ∈ ws2, isSpace c = true) :
    TrimSpace (ws1 ++ tsNoCheckComment ++ ws2) = tsNoCheckComment := by
  have hm : tsNoCheckComment = '/' :: tsNoCheckComment.tail := by decide
  have hr : tsNoCheckComment.reverse = 't' :: tsNoCheckComment.reverse.tail := by decide
  have hs : isSpace '/' = false := by decide
  have ht : isSpace 't' = false := by decide
  have hrev : ∀ c ∈ ws2.reverse, isSpace c = true := fun c hc => h2 c (List.mem_reverse.mp hc)
  unfold TrimSpace trimRight
  rw [List.append_assoc, dropWhile_append_of_all isSpace ws1 _ h1]
  have e1 : (tsNoCheckComment ++ ws2).dropWhile isSpace = tsNoCheckComment ++ ws2 := by
    rw [hm, List.cons_append, List.dropWhile_cons, hs]; rfl
  rw [e1, List.reverse_append, dropWhile_append_of_all isSpace _ _ hrev]
  have e2 : tsNoCheckComment.reverse.dropWhile isSpace = tsNoCheckComment.reverse := by
    rw [hr, List.dropWhile_cons, ht]; rfl
  rw [e2, List.reverse_reverse]

theorem trimSpace_marker_embedded (pre post : GoString)
    (h : ∃ c ∈ pre ++ post, isSpace c = false) :
    TrimSpace (pre ++ tsNoCheckComment ++ post) ≠ tsNoCheckComment := by
  intro heq
  have hf := filter_TrimSpace (pre ++ tsNoCheckComment ++ post)
  rw [heq] at hf
  have hl := congrArg List.length hf
  simp only [List.filter_append, List.length_append] at hl
  have hpre : (pre.filter (fun c => !isSpace c)).length = 0 := by omega
  have hpost : (post.filter (fun c => !isSpace c)).length = 0 := by omega
  obtain ⟨c, hc, hcs⟩ := h
  have hne : (!isSpace c) = true := by rw [hcs]; rfl
  rcases List.mem_append.mp hc with hc | hc
  · have : c ∈ pre.filter (fun c => !isSpace c) := List.mem_filter.mpr ⟨hc, hne⟩
    rw [List.length_eq_zero.mp hpre] at this
    cases this
  · have : c ∈ post.filter (fun c => !isSpace c) := List.mem_filter.mpr ⟨hc, hne⟩
    rw [List.length_eq_zero.mp hpost] at this
    cases this

/-! ## The scanner -/

theorem splitLines_append_newline (l rest : GoString) (h : '\n' ∉ l) :
    splitLines (l ++ '\n' :: rest) = l :: splitLines rest := by
  induction l with
  | nil => simp [splitLines]
  | cons c t ih =>
    have hc : c ≠ '\n' := fun e => h (e ▸ List.mem_cons_self _ _)
    have ht : '\n' ∉ t := fun e => h (List.mem_cons_of_mem _ e)
    have e : splitLines (c :: (t ++ '\n' :: rest)) =
        match splitLines (t ++ '\n' :: rest) with
        | [] => [[c]]
        | l :: ls => (c :: l) :: ls := by
      simp only [splitLines, if_neg hc]
    rw [List.cons_append, e, ih ht]

theorem splitLines_final (l : GoString) (hne : l ≠ []) (h : '\n' ∉ l) :
    splitLines l = [l] := by
  induction l with
  | nil => exact absurd rfl hne
  | cons c t ih =>
    have hc : c ≠ '\n' := fun e => h (e ▸ List.mem_cons_self _ _)
    have ht : '\n' ∉ t := fun e => h (List.mem_cons_of_mem _ e)
    cases t with
    | nil => simp [splitLines, hc]
    | cons d u =>
      have e : splitLines (c :: d :: u) =
          match splitLines (d :: u) with
          | [] => [[c]]
          | l :: ls => (c :: l) :: ls := by
        simp only [splitLines, if_neg hc]
      rw [e, ih (by simp) ht]

theorem splitLines_writeLines (lines : List GoString) (h : ∀ l ∈ lines, '\n' ∉ l) :
    splitLines (writeLines lines) = lines := by
  induction lines with
  | nil => rfl
  | cons l t ih =>
    have e : writeLines (l :: t) = l ++ '\n' :: writeLines t := by
      simp [writeLines]
    rw [e, splitLines_append_newline l _ (h l (List.mem_cons_self _ _)),
      ih (fun x hx => h x (List.mem_cons_of_mem _ hx))]

theorem splitLines_no_newline (s : GoString) : ∀ l ∈ splitLines s, '\n' ∉ l := by
  induction s with
  | nil => simp [splitLines]
  | cons c cs ih =>
    intro l hl
    by_cases hc : c = '\n'
    · simp only [splitLines, if_pos hc, List.mem_cons] at hl
      rcases hl with rfl | hl
      · simp
      · exact ih l hl
    · simp only [splitLines, if_neg hc] at hl
      cases hs : splitLines cs with
      | nil =>
        rw [hs] at hl
        simp only [List.mem_singleton] at hl
        subst hl
        simpa using Ne.symm hc
      | cons x xs =>
        rw [hs] at hl ih
        simp only [List.mem_cons] at hl
        rcases hl with rfl | hl
        · have hx := ih x (List.mem_cons_self _ _)
          simp only [List.mem_cons, not_or]
          exact ⟨Ne.symm hc, hx⟩
        · exact ih l (List.mem_cons_of_mem _ hl)

theorem dropCR_cases (l : GoString) : dropCR l = l ∨ l = dropCR l ++ ['\r'] := by
  unfold dropCR
  by_cases h : l.getLast? = some '\r'
  · right
    rw [if_pos h]
    exact (List.dropLast_append_getLast? '\r' (by simp [h])).symm
  · left
    rw [if_neg h]

theorem dropCR_no_newline (l : GoString) (h : '\n' ∉ l) : '\n' ∉ dropCR l := by
  rcases dropCR_cases l with e | e
  · rw [e]; exact h
  · intro hm
    apply h
    rw [e]
    exact List.mem_append_left _ hm

theorem byteLen_dropCR_le (l : GoString) : byteLen (dropCR l) ≤ byteLen l := by
  rcases dropCR_cases l with e | e
  · rw [e]
  · conv_rhs => rw [e]
    simp [byteLen]

theorem trimRight_append_spaces (s ws : GoString) (h : ∀ c ∈ ws, isSpace c = true) :
    trimRight (s ++ ws) = trimRight s := by
  unfold trimRight
  rw [List.reverse_append, dropWhile_append_of_all isSpace _ _
    (fun c hc => h c (List.mem_reverse.mp hc))]

theorem trimSpace_append_spaces (s ws : GoString) (h : ∀ c ∈ ws, isSpace c = true) :
    TrimSpace (s ++ ws) = TrimSpace s := by
  unfold TrimSpace
  induction s with
  | nil =>
    have e : ws.dropWhile isSpace = [] := by
      rw [List.dropWhile_eq_nil_iff]; exact h
    simp [e]
  | cons c t ih =>
    by_cases hc : isSpace c = true
    · simpa [List.dropWhile_cons, hc] using ih
    · simp only [List.cons_append, List.dropWhile_cons, hc]
      exact trimRight_append_spaces (c :: t) ws h

theorem trimSpace_dropCR (l : GoString) : TrimSpace (dropCR l) = TrimSpace l := by
  rcases dropCR_cases l with e | e
  · rw [e]
  · conv_rhs => rw [e]
    exact (trimSpace_append_spaces _ _ (by decide)).symm

theorem scanFile_eq_some (content : GoString) (lines : List GoString)
    (h : scanFile content = some lines) :
    lines = (splitLines content).map dropCR ∧
    ∀ l ∈ splitLines content, byteLen l < MaxScanTokenSize := by
  unfold scanFile at h
  split at h
  · rename_i hall
    simp only [Option.some.injEq] at h
    refine ⟨h.symm, ?_⟩
    intro l hl
    simpa using (List.all_eq_true.mp hall) l hl
  · cases h

theorem scanFile_lines_fit (content : GoString) (lines : List GoString)
    (h : scanFile content = some lines) :
    ∀ l ∈ lines, '\n' ∉ l ∧ byteLen l < MaxScanTokenSize := by
  obtain ⟨hl, hfit⟩ := scanFile_eq_some content lines h
  subst hl
  intro l hl
  obtain ⟨r, hr, rfl⟩ := List.mem_map.mp hl
  exact ⟨dropCR_no_newline r (splitLines_no_newline content r hr),
    lt_of_le_of_lt (byteLen_dropCR_le r) (hfit r hr)⟩

theorem scanFile_writeLines (lines : List GoString)
    (h : ∀ l ∈ lines, '\n' ∉ l ∧ byteLen l < MaxScanTokenSize) :
    scanFile (writeLines lines) = some (lines.map dropCR) := by
  unfold scanFile
  rw [splitLines_writeLines lines (fun l hl => (h l hl).1)]
  have hall : lines.all (fun l => decide (byteLen l < MaxScanTokenSize)) = true := by
    rw [List.all_eq_true]
    intro l hl
    simpa using (h l hl).2
  rw [if_pos hall]

theorem mem_newLines (lines : List GoString) (k : Nat) (l : GoString) :
    l ∈ newLines lines k → l = tsNoCheckComment ∨ l ∈ lines := by
  intro h
  simp only [newLines, List.mem_append, List.mem_singleton] at h
  rcases h with (h | h) | h
  · exact Or.inr (List.mem_of_mem_take h)
  · exact Or.inl h
  · exact Or.inr (List.mem_of_mem_drop h)

theorem scanFile_written (content : GoString) (lines : List GoString) (k : Nat)
    (h : scanFile content = some lines) :
    scanFile (writeLines (newLines lines k)) = some ((newLines lines k).map dropCR) := by
  apply scanFile_writeLines
  intro l hl
  rcases mem_newLines lines k l hl with rfl | hl
  · exact ⟨by decide, by decide⟩
  · exact scanFile_lines_fit content lines h l hl

theorem hasNoCheck_written (lines : List GoString) (k : Nat) :
    hasNoCheck ((newLines lines k).map dropCR) = true := by
  rw [hasNoCheck_iff]
  refine ⟨dropCR tsNoCheckComment, List.mem_map.mpr ⟨tsNoCheckComment, ?_, rfl⟩, by decide⟩
  simp [newLines]

/-! ## `processFile` -/

theorem processFile_inserts (fs : FileSys) (filePath content : GoString)
    (lines : List GoString) (hfile : fs.read filePath = some content)
    (hscan : scanFile content = some lines) (hno : hasNoCheck lines = false) :
    processFile fs WriteEnv.ok filePath =
      (true, fs.write filePath (writeLines (newLines lines (insertIndex lines)))) := by
  simp [processFile, hfile, hscan, hno, WriteEnv.ok]

theorem processFile_skips (fs : FileSys) (env : WriteEnv) (filePath content : GoString)
    (lines : List GoString) (hfile : fs.read filePath = some content)
    (hscan : scanFile content = some lines) (hyes : hasNoCheck lines = true) :
    processFile fs env filePath = (true, fs) := by
  simp [processFile, hfile, hscan, hyes]

theorem processFile_true_cases (fs fs1 : FileSys) (env : WriteEnv) (filePath : GoString)
    (h : processFile fs env filePath = (true, fs1)) :
    ∃ content lines, fs.read filePath = some content ∧ scanFile content = some lines ∧
      ((hasNoCheck lines = true ∧ fs1 = fs) ∨
       (hasNoCheck lines = false ∧
        fs1 = fs.write filePath (writeLines (newLines lines (insertIndex lines))))) := by
  cases hfile : fs.read filePath with
  | none => simp [processFile, hfile] at h
  | some content =>
    cases hscan : scanFile content with
    | none => simp [processFile, hfile, hscan] at h
    | some lines =>
      refine ⟨content, lines, rfl, hscan, ?_⟩
      cases hno : hasNoCheck lines with
      | true =>
        left
        rw [processFile_skips fs env filePath content lines hfile hscan hno] at h
        exact ⟨rfl, (Prod.mk.inj h).2.symm⟩
      | false =>
        right
        refine ⟨rfl, ?_⟩
        simp only [processFile, hfile, hscan, hno, Bool.false_eq_true, if_false] at h
        cases hc : env.createOk with
        | false => simp [hc] at h
        | true =>
          cases hf : env.failAfter with
          | none =>
            simp only [hc, hf, if_true] at h
            exact (Prod.mk.inj h).2.symm
          | some n =>
            simp only [hc, hf, if_true] at h
            by_cases hn : n < (writeLines (newLines lines (insertIndex lines))).length
            · rw [if_pos hn] at h
              simp at h
            · rw [if_neg hn] at h
              exact (Prod.mk.inj h).2.symm

/-! ## Lines that begin with `#!` -/

theorem dropWhile_append_cons_of_neg {α : Type} (p : α → Bool) (x : List α) (a : α)
    (y : List α) (ha : p a = false) :
    (x ++ a :: y).dropWhile p = x.dropWhile p ++ a :: y := by
  induction x with
  | nil => simp [List.dropWhile_cons, ha]
  | cons b t ih =>
    by_cases hb : p b = true
    · simp [List.dropWhile_cons, hb, ih]
    · simp [List.dropWhile_cons, hb]

theorem trimRight_cons_of_neg (a : Char) (s : GoString) (ha : isSpace a = false) :
    trimRight (a :: s) = a :: trimRight s := by
  unfold trimRight
  rw [List.reverse_cons, dropWhile_append_cons_of_neg isSpace _ a [] ha]
  simp

theorem skipLine_of_shebang (line : GoString) (h : "#!".toList <+: line) :
    skipLine line = false := by
  obtain ⟨t, rfl⟩ := h
  have h1 : isSpace '#' = false := by decide
  have h2 : isSpace '!' = false := by decide
  have e : TrimSpace ("#!".toList ++ t) = '#' :: '!' :: trimRight t := by
    unfold TrimSpace
    show trimRight (('#' :: '!' :: t).dropWhile isSpace) = _
    rw [List.dropWhile_cons, h1]
    simp only [Bool.false_eq_true, if_false]
    rw [trimRight_cons_of_neg _ _ h1, trimRight_cons_of_neg _ _ h2]
  unfold skipLine
  simp only [e]
  simp [HasPrefix]

/-! ## Claims on the line sequence -/

/-- C3: the marker is reported present exactly when some line, trimmed, equals
`tsNoCheckComment`; a marker line padded with white space is recognized; a line
holding the marker text next to other non-white-space text is not. -/
theorem hasNoCheck_exact_trim_match :
    (∀ lines : List GoString,
      hasNoCheck lines = true ↔ ∃ line ∈ lines, TrimSpace line = tsNoCheckComment) ∧
    (∀ ws : GoString, (∀ c ∈ ws, isSpace c = true) →
      TrimSpace (tsNoCheckComment ++ ws) = tsNoCheckComment ∧
      ∀ before after : List GoString,
        hasNoCheck (before ++ (tsNoCheckComment ++ ws) :: after) = true) ∧
    (∀ pre post : GoString, (∃ c ∈ pre ++ post, isSpace c = false) →
      TrimSpace (pre ++ tsNoCheckComment ++ post) ≠ tsNoCheckComment ∧
      hasNoCheck [pre ++ tsNoCheckComment ++ post] = false) := by
  refine ⟨hasNoCheck_iff, ?_, ?_⟩
  · intro ws hws
    have ht : TrimSpace (tsNoCheckComment ++ ws) = tsNoCheckComment := by
      simpa using trimSpace_marker_padded [] ws (by simp) hws
    refine ⟨ht, fun before after => ?_⟩
    rw [hasNoCheck_iff]
    exact ⟨tsNoCheckComment ++ ws, by simp, ht⟩
  · intro pre post h
    have hne := trimSpace_marker_embedded pre post h
    refine ⟨hne, ?_⟩
    simp only [hasNoCheck, if_neg hne]

/-- C3 at concrete lines: the marker followed by blanks, a tab and a carriage
return is found; `x(); ` followed by the marker is not. -/
theorem hasNoCheck_exact_trim_match_witness :
    hasNoCheck ["const a = 1;".toList, tsNoCheckComment ++ "  \t\r".toList] = true ∧
    hasNoCheck ["x(); ".toList ++ tsNoCheckComment ++ []] = false :=
  ⟨(hasNoCheck_exact_trim_match.2.1 "  \t\r".toList (by decide)).2 ["const a = 1;".toList] [],
   (hasNoCheck_exact_trim_match.2.2 "x(); ".toList [] ⟨'x', by decide, by decide⟩).2⟩

/-- C4: with no marker line and insertion index `k`, the new sequence that
`processFile` writes is the first `k` lines, the marker, then the other lines;
it is one line longer, the marker sits at index `k`, and erasing index `k`
gives the original sequence back. -/
theorem newLines_positional (fs : FileSys) (filePath content : GoString)
    (lines : List GoString) (hfile : fs.read filePath = some content)
    (hscan : scanFile content = some lines) (hno : hasNoCheck lines = false) :
    insertIndex lines ≤ lines.length ∧
    processFile fs WriteEnv.ok filePath =
      (true, fs.write filePath (writeLines
        (lines.take (insertIndex lines) ++ tsNoCheckComment ::
          lines.drop (insertIndex lines)))) ∧
    newLines lines (insertIndex lines) =
      lines.take (insertIndex lines) ++ tsNoCheckComment :: lines.drop (insertIndex lines) ∧
    (newLines lines (insertIndex lines)).length = lines.length + 1 ∧
    (newLines lines (insertIndex lines))[insertIndex lines]? = some tsNoCheckComment ∧
    (newLines lines (insertIndex lines)).eraseIdx (insertIndex lines) = lines := by
  have hk := insertIndex_le_length lines
  have hnew : newLines lines (insertIndex lines) =
      lines.take (insertIndex lines) ++ tsNoCheckComment :: lines.drop (insertIndex lines) := by
    simp [newLines]
  refine ⟨hk, ?_, hnew, newLines_length _ _, newLines_getElem? _ _ hk,
    newLines_eraseIdx _ _ hk⟩
  rw [← hnew]
  exact processFile_inserts fs filePath content lines hfile hscan hno

/-- C4 at a file holding the lines `// header`, blank, `const x = 1;`. -/
theorem newLines_positional_witness :
    scanFile "// header\n\nconst x = 1;\n".toList =
      some ["// header".toList, [], "const x = 1;".toList] ∧
    hasNoCheck ["// header".toList, [], "const x = 1;".toList] = false ∧
    (newLines ["// header".toList, [], "const x = 1;".toList]
      (insertIndex ["// header".toList, [], "const x = 1;".toList])).eraseIdx
      (insertIndex ["// header".toList, [], "const x = 1;".toList]) =
      ["// header".toList, [], "const x = 1;".toList] :=
  ⟨by decide, by decide,
   (newLines_positional (singleFile "// header\n\nconst x = 1;\n".toList) "a.ts".toList
      "// header\n\nconst x = 1;\n".toList ["// header".toList, [], "const x = 1;".toList]
      rfl (by decide) (by decide)).2.2.2.2.2⟩

/-! ## Claims on `processFile` -/

/-- C1: `processFile` is idempotent: when a first run on a file returns true, a
second run on what the first left returns true and leaves it as it is, whatever
the host would do with a write. -/
theorem processFile_idempotent (fs fs1 : FileSys) (env env2 : WriteEnv)
    (filePath : GoString) (h : processFile fs env filePath = (true, fs1)) :
    processFile fs1 env2 filePath = (true, fs1) := by
  obtain ⟨content, lines, hfile, hscan, hcase⟩ :=
    processFile_true_cases fs fs1 env filePath h
  rcases hcase with ⟨hyes, rfl⟩ | ⟨_, rfl⟩
  · exact processFile_skips fs1 env2 filePath content lines hfile hscan hyes
  · exact processFile_skips _ env2 filePath _ _ (by simp [FileSys.read, FileSys.write])
      (scanFile_written content lines (insertIndex lines) hscan)
      (hasNoCheck_written lines (insertIndex lines))

/-- C1 at the file `const x = 1;`: the first run succeeds, and the second run
on its result succeeds and changes nothing. -/
theorem processFile_idempotent_witness :
    (processFile (singleFile "const x = 1;\n".toList) WriteEnv.ok "a.ts".toList).1 = true ∧
    processFile
      (processFile (singleFile "const x = 1;\n".toList) WriteEnv.ok "a.ts".toList).2
      WriteEnv.ok "a.ts".toList =
      (true, (processFile (singleFile "const x = 1;\n".toList) WriteEnv.ok "a.ts".toList).2) :=
  ⟨by decide,
   processFile_idempotent (singleFile "const x = 1;\n".toList) _ WriteEnv.ok WriteEnv.ok
     "a.ts".toList (Prod.ext (by decide) rfl)⟩

/-- C2: on a file that can be opened and scanned and in which some line,
trimmed, equals the marker, `processFile` returns true and leaves the whole
file system, this file included, as it was: nothing is written. -/
theorem processFile_marker_present (fs : FileSys) (env : WriteEnv)
    (filePath content : GoString) (hfile : fs.read filePath = some content)
    (hread : (scanFile content).isSome = true)
    (hmark : ∃ line ∈ splitLines content, TrimSpace line = tsNoCheckComment) :
    processFile fs env filePath = (true, fs) ∧
    (processFile fs env filePath).2.read filePath = some content := by
  obtain ⟨lines, hscan⟩ := Option.isSome_iff_exists.mp hread
  obtain ⟨hl, _⟩ := scanFile_eq_some content lines hscan
  obtain ⟨line, hmem, htrim⟩ := hmark
  have hyes : hasNoCheck lines = true := by
    rw [hasNoCheck_iff]
    refine ⟨dropCR line, ?_, ?_⟩
    · rw [hl]; exact List.mem_map.mpr ⟨line, hmem, rfl⟩
    · rw [trimSpace_dropCR, htrim]
  have hp := processFile_skips fs env filePath content lines hfile hscan hyes
  exact ⟨hp, by rw [hp]; exact hfile⟩

/-- C2 at a file whose third line is the marker, indented and followed by a
carriage return; the host would fail every write. -/
theorem processFile_marker_present_witness :
    processFile
      (singleFile ("let a;\n\n  ".toList ++ tsNoCheckComment ++ "\r\nlet b;".toList))
      ⟨false, some 0⟩ "a.ts".toList =
      (true, singleFile ("let a;\n\n  ".toList ++ tsNoCheckComment ++ "\r\nlet b;".toList)) :=
  (processFile_marker_present
    (singleFile ("let a;\n\n  ".toList ++ tsNoCheckComment ++ "\r\nlet b;".toList))
    ⟨false, some 0⟩ "a.ts".toList
    ("let a;\n\n  ".toList ++ tsNoCheckComment ++ "\r\nlet b;".toList) rfl (by decide)
    ⟨"  ".toList ++ tsNoCheckComment ++ "\r".toList, by decide, by decide⟩).1

/-- C5: the insertion index is the index of the first line whose trimmed text
is non-empty and begins with neither `//` nor `/*`, and the number of lines
when there is none: every line before it is blank or comment, the line at it
(when there is one) is code; lines that are all blank or comment, the empty
sequence included, get the marker appended; a first line of code gets it at
index 0.  The property holds for every sequence of lines, with or without a
marker line. -/
theorem insertIndex_first_code_line (lines : List GoString) :
    insertIndex lines = lines.findIdx (fun l => decide (isCodeLine l)) ∧
    insertIndex lines ≤ lines.length ∧
    (∀ i (hi : i < lines.length), i < insertIndex lines → ¬ isCodeLine lines[i]) ∧
    (∀ hk : insertIndex lines < lines.length, isCodeLine lines[insertIndex lines]) ∧
    ((∀ l ∈ lines, ¬ isCodeLine l) →
      insertIndex lines = lines.length ∧
      newLines lines (insertIndex lines) = lines ++ [tsNoCheckComment]) ∧
    (∀ l rest, lines = l :: rest → isCodeLine l →
      insertIndex lines = 0 ∧
      newLines lines (insertIndex lines) = tsNoCheckComment :: lines) := by
  have hfun : (fun l => !skipLine l) = fun l => decide (isCodeLine l) := by
    funext l
    cases h : skipLine l with
    | false => simp [(skipLine_eq_false_iff l).mp h]
    | true => simp [(skipLine_eq_true_iff l).mp h]
  refine ⟨?_, insertIndex_le_length lines, ?_, ?_, ?_, ?_⟩
  · rw [insertIndex_eq_takeWhile, takeWhile_length_eq_findIdx, hfun]
  · intro i hi h
    exact (skipLine_eq_true_iff _).mp (insertIndex_skips lines i hi h)
  · intro hk
    exact (skipLine_eq_false_iff _).mp (insertIndex_stops lines hk)
  · intro hall
    have hk : insertIndex lines = lines.length := by
      apply insertIndex_unique lines lines.length (le_refl _)
      · intro i hi _
        exact (skipLine_eq_true_iff _).mpr (hall _ (List.getElem_mem _))
      · intro hlt
        exact absurd hlt (lt_irrefl _)
    refine ⟨hk, ?_⟩
    rw [hk]
    simp [newLines]
  · intro l rest hl hcode
    have hk : insertIndex lines = 0 := by
      subst hl
      apply insertIndex_unique _ 0 (Nat.zero_le _)
      · intro i _ hi
        exact absurd hi (Nat.not_lt_zero _)
      · intro _
        exact (skipLine_eq_false_iff _).mpr hcode
    refine ⟨hk, ?_⟩
    rw [hk]
    simp [newLines]

/-- C5 at the lines `// header`, blank, `const x = 1;`: the index is 2 and the
marker goes between the blank line and the code. -/
theorem insertIndex_first_code_line_witness :
    insertIndex ["// header".toList, [], "const x = 1;".toList] =
      ["// header".toList, [], "const x = 1;".toList].findIdx
        (fun l => decide (isCodeLine l)) ∧
    insertIndex ["// header".toList, [], "const x = 1;".toList] = 2 ∧
    newLines ["// header".toList, [], "const x = 1;".toList]
      (insertIndex ["// header".toList, [], "const x = 1;".toList]) =
      ["// header".toList, [], tsNoCheckComment, "const x = 1;".toList] :=
  ⟨(insertIndex_first_code_line ["// header".toList, [], "const x = 1;".toList]).1,
   by decide, by decide⟩

/-- C6 fails: a first line that begins with `#!` ends the scan at once, so the
insertion index is 0 and the marker is written before the shebang line; seen on
the file `#!/usr/bin/env node`, `console.log(1);`. -/
theorem shebang_marker_goes_first :
    (∀ line rest, "#!".toList <+: line →
      insertIndex (line :: rest) = 0 ∧
      newLines (line :: rest) (insertIndex (line :: rest)) =
        tsNoCheckComment :: line :: rest) ∧
    hasNoCheck ["#!/usr/bin/env node".toList, "console.log(1);".toList] = false ∧
    insertIndex ["#!/usr/bin/env node".toList, "console.log(1);".toList] = 0 ∧
    (processFile (singleFile "#!/usr/bin/env node\nconsole.log(1);\n".toList)
      WriteEnv.ok "cli.ts".toList).2.read "cli.ts".toList =
      some (tsNoCheckComment ++ "\n#!/usr/bin/env node\nconsole.log(1);\n".toList) := by
  refine ⟨?_, by decide, by decide, by decide⟩
  intro line rest h
  have hk : insertIndex (line :: rest) = 0 := by
    simp [insertIndex, insertIndexLoop, skipLine_of_shebang line h]
  refine ⟨hk, ?_⟩
  rw [hk]
  simp [newLines]

/-- C10: the scan does not follow block comments: when the lines before `j` are
blank or begin, trimmed, with `//` or `/*`, and line `j` is non-empty and begins
with neither, the insertion index is `j` and `processFile` writes the marker at
index `j`, before that line. -/
theorem insertIndex_halts_inside_block_comment (fs : FileSys)
    (filePath content : GoString) (lines : List GoString) (j : Nat)
    (hfile : fs.read filePath = some content) (hscan : scanFile content = some lines)
    (hno : hasNoCheck lines = false) (hj : j < lines.length)
    (hbefore : ∀ i (hi : i < lines.length), i < j →
      TrimSpace lines[i] = [] ∨ "//".toList <+: TrimSpace lines[i] ∨
        "/*".toList <+: TrimSpace lines[i])
    (hline : TrimSpace lines[j] ≠ [] ∧ ¬ "/*".toList <+: TrimSpace lines[j] ∧
      ¬ "//".toList <+: TrimSpace lines[j]) :
    insertIndex lines = j ∧
    newLines lines (insertIndex lines) = lines.take j ++ tsNoCheckComment :: lines.drop j ∧
    processFile fs WriteEnv.ok filePath =
      (true, fs.write filePath
        (writeLines (lines.take j ++ tsNoCheckComment :: lines.drop j))) := by
  have hk : insertIndex lines = j := by
    apply insertIndex_unique lines j (le_of_lt hj)
    · intro i hi hij
      rw [skipLine_eq_true_iff]
      intro hcode
      rcases hbefore i hi hij with h | h | h
      · exact hcode.1 h
      · exact hcode.2.1 h
      · exact hcode.2.2 h
    · intro _
      rw [skipLine_eq_false_iff]
      exact ⟨hline.1, hline.2.2, hline.2.1⟩
  have hnew : newLines lines (insertIndex lines) =
      lines.take j ++ tsNoCheckComment :: lines.drop j := by
    rw [hk]; simp [newLines]
  refine ⟨hk, hnew, ?_⟩
  rw [← hnew]
  exact processFile_inserts fs filePath content lines hfile hscan hno

/-- C10 at the lines `/*`, ` * doc`, ` */`, `const x = 1;` with `j = 1`: the
insertion index is 1. -/
theorem insertIndex_halts_inside_block_comment_witness :
    scanFile "/*\n * doc\n */\nconst x = 1;\n".toList =
      some ["/*".toList, " * doc".toList, " */".toList, "const x = 1;".toList] ∧
    insertIndex ["/*".toList, " * doc".toList, " */".toList, "const x = 1;".toList] = 1 :=
  ⟨by decide,
   (insertIndex_halts_inside_block_comment
      (singleFile "/*\n * doc\n */\nconst x = 1;\n".toList) "a.ts".toList
      "/*\n * doc\n */\nconst x = 1;\n".toList
      ["/*".toList, " * doc".toList, " */".toList, "const x = 1;".toList] 1
      rfl (by decide) (by decide) (by decide)
      (fun i hi h => by
        obtain rfl : i = 0 := by omega
        simp only [List.getElem_cons_zero]
        decide)
      (by decide)).1⟩

/-- C9 fails on a line that ends in a carriage return: from the file
`const x = 1;\r\n` the scanner keeps `const x = 1;`, and the written file has
no line `const x = 1;\r`. -/
theorem carriage_return_not_preserved :
    splitLines "const x = 1;\r\n".toList = ["const x = 1;\r".toList] ∧
    scanFile "const x = 1;\r\n".toList = some ["const x = 1;".toList] ∧
    hasNoCheck ["const x = 1;".toList] = false ∧
    (processFile (singleFile "const x = 1;\r\n".toList) WriteEnv.ok "a.ts".toList).2.read
      "a.ts".toList = some (tsNoCheckComment ++ "\nconst x = 1;\n".toList) ∧
    splitLines (tsNoCheckComment ++ "\nconst x = 1;\n".toList) =
      [tsNoCheckComment, "const x = 1;".toList] ∧
    "const x = 1;\r".toList ∉ splitLines (tsNoCheckComment ++ "\nconst x = 1;\n".toList) := by
  decide

/-- C9 as amended: with no marker line and I/O succeeding, the newline-separated
lines of the written content are the lines the scanner read with the marker
inserted; apart from the marker line they are the newline-separated lines of
the original content, each without one carriage return at its end when it had
one, and otherwise character for character; a content with no line ending in a
carriage return keeps all its lines exactly. -/
theorem processFile_preserves_lines (fs : FileSys) (filePath content : GoString)
    (lines : List GoString) (hfile : fs.read filePath = some content)
    (hscan : scanFile content = some lines) (hno : hasNoCheck lines = false) :
    ∃ out, processFile fs WriteEnv.ok filePath =
        (true, fs.write filePath out) ∧
      splitLines out = newLines lines (insertIndex lines) ∧
      (splitLines out).eraseIdx (insertIndex lines) = (splitLines content).map dropCR ∧
      (∀ l : GoString, dropCR l = l ∨ l = dropCR l ++ ['\r']) ∧
      ((∀ l ∈ splitLines content, l.getLast? ≠ some '\r') →
        (splitLines out).eraseIdx (insertIndex lines) = splitLines content) := by
  obtain ⟨hl, _⟩ := scanFile_eq_some content lines hscan
  have hsplit : splitLines (writeLines (newLines lines (insertIndex lines))) =
      newLines lines (insertIndex lines) := by
    apply splitLines_writeLines
    intro l hmem
    rcases mem_newLines lines _ l hmem with rfl | hmem
    · decide
    · exact (scanFile_lines_fit content lines hscan l hmem).1
  have herase : (splitLines (writeLines (newLines lines (insertIndex lines)))).eraseIdx
      (insertIndex lines) = (splitLines content).map dropCR := by
    rw [hsplit, newLines_eraseIdx lines _ (insertIndex_le_length lines), hl]
  refine ⟨writeLines (newLines lines (insertIndex lines)),
    processFile_inserts fs filePath content lines hfile hscan hno, hsplit, herase,
    dropCR_cases, ?_⟩
  intro hcr
  rw [herase]
  conv_rhs => rw [← List.map_id (splitLines content)]
  apply List.map_congr_left
  intro l hmem
  simp [dropCR, hcr l hmem]

/-- C9 as amended, at the file `  let a = 1;  ` (line ended by `\r\n`) then
`\tlet b;`: the written lines without the marker are the original lines less the
carriage return. -/
theorem processFile_preserves_lines_witness :
    scanFile "  let a = 1;  \r\n\tlet b;".toList =
      some ["  let a = 1;  ".toList, "\tlet b;".toList] ∧
    hasNoCheck ["  let a = 1;  ".toList, "\tlet b;".toList] = false ∧
    ∃ out, processFile (singleFile "  let a = 1;  \r\n\tlet b;".toList) WriteEnv.ok
        "a.ts".toList =
        (true, (singleFile "  let a = 1;  \r\n\tlet b;".toList).write "a.ts".toList out) ∧
      (splitLines out).eraseIdx
        (insertIndex ["  let a = 1;  ".toList, "\tlet b;".toList]) =
        (splitLines "  let a = 1;  \r\n\tlet b;".toList).map dropCR :=
  ⟨by decide, by decide,
   (processFile_preserves_lines (singleFile "  let a = 1;  \r\n\tlet b;".toList)
      "a.ts".toList "  let a = 1;  \r\n\tlet b;".toList
      ["  let a = 1;  ".toList, "\tlet b;".toList] rfl (by decide) (by decide)).imp
     (fun _ h => ⟨h.1, h.2.2.1⟩)⟩

/-! ## The extension filter -/

theorem isPathSeparator_dot (h : Host) : IsPathSeparator h '.' = false := by
  cases hw : h.windows <;> simp [IsPathSeparator, hw]

theorem extLoop_eq (h : Host) (r acc : GoString) :
    extLoop h r acc =
      if '.' ∈ r.takeWhile (fun c => !IsPathSeparator h c) then
        '.' :: (((r.takeWhile (fun c => !IsPathSeparator h c)).takeWhile
          (fun c => c != '.')).reverse ++ acc)
      else [] := by
  induction r generalizing acc with
  | nil => simp [extLoop]
  | cons c t ih =>
    by_cases hs : IsPathSeparator h c = true
    · simp [extLoop, hs, List.takeWhile_cons]
    · by_cases hd : c = '.'
      · subst hd
        simp [extLoop, isPathSeparator_dot, List.takeWhile_cons]
      · have hd2 : ¬ '.' = c := fun e => hd e.symm
        simp only [extLoop, hs, if_false, hd, ih, List.takeWhile_cons, Bool.not_eq_true]
        simp [hs, hd, hd2, List.takeWhile_cons]

theorem Ext_eq (h : Host) (path : GoString) :
    Ext h path =
      match afterLastDot (fileName h path) with
      | some e => '.' :: e
      | none => [] := by
  unfold Ext afterLastDot fileName
  rw [extLoop_eq]
  simp only [List.mem_reverse, List.reverse_reverse, List.append_nil]
  split <;> rfl

theorem takeWhile_append_cons_of_neg {α : Type} (p : α → Bool) (a : List α) (x : α)
    (b : List α) (ha : ∀ c ∈ a, p c = true) (hx : p x = false) :
    (a ++ x :: b).takeWhile p = a := by
  induction a with
  | nil => simp [List.takeWhile_cons, hx]
  | cons c t ih =>
    have hc := ha c (List.mem_cons_self _ _)
    simp only [List.cons_append, List.takeWhile_cons, hc, if_true]
    rw [ih (fun d hd => ha d (List.mem_cons_of_mem _ hd))]

theorem afterLastDot_eq_some_iff (name e : GoString) :
    afterLastDot name = some e ↔ ∃ pre, name = pre ++ '.' :: e ∧ '.' ∉ e := by
  unfold afterLastDot
  constructor
  · intro h
    split at h
    · rename_i hmem
      simp only [Option.some.injEq] at h
      have hsplit := List.takeWhile_append_dropWhile (fun c => c != '.') name.reverse
      have hT : ∀ c ∈ name.reverse.takeWhile (fun c => c != '.'), c ≠ '.' := by
        intro c hc
        simpa using List.mem_takeWhile_imp hc
      cases hD : name.reverse.dropWhile (fun c => c != '.') with
      | nil =>
        rw [hD, List.append_nil] at hsplit
        exact absurd rfl (hT '.' (by rw [hsplit]; exact List.mem_reverse.mpr hmem))
      | cons d D =>
        have hd : d = '.' := by
          have h0 : name.reverse.dropWhile (fun c => c != '.') ≠ [] := by simp [hD]
          have := List.head_dropWhile_not (fun c => c != '.') name.reverse h0
          simpa [hD] using this
        subst hd
        rw [hD] at hsplit
        refine ⟨D.reverse, ?_, ?_⟩
        · have := congrArg List.reverse hsplit
          rw [List.reverse_reverse] at this
          rw [← this, ← h]
          simp
        · rw [← h]
          intro hm
          exact hT '.' (List.mem_reverse.mp hm) rfl
    · cases h
  · rintro ⟨pre, rfl, hne⟩
    have hmem : '.' ∈ pre ++ '.' :: e := by simp
    rw [if_pos hmem]
    congr 1
    have : (pre ++ '.' :: e).reverse = e.reverse ++ '.' :: pre.reverse := by simp
    rw [this]
    have hall : ∀ c ∈ e.reverse, (c != '.') = true := by
      intro c hc
      have : c ≠ '.' := fun hcd => hne (hcd ▸ List.mem_reverse.mp hc)
      simpa using this
    rw [takeWhile_append_cons_of_neg _ _ '.' _ hall (by simp), List.reverse_reverse]

theorem toLowerRune_dot (h : Host) : toLowerRune h '.' = '.' := rfl

theorem toLowerRune_eq_dot (h : Host)
    (htable : ∀ c : Char, 128 ≤ c.toNat → h.lowerTable c ≠ '.') (c : Char)
    (hc : toLowerRune h c = '.') : c = '.' := by
  unfold toLowerRune at hc
  by_cases h1 : c.toNat < 128
  · rw [if_pos h1] at hc
    by_cases h2 : 'A'.toNat ≤ c.toNat ∧ c.toNat ≤ 'Z'.toNat
    · rw [if_pos h2] at hc
      exfalso
      have ha : 'A'.toNat = 65 := rfl
      have hz : 'Z'.toNat = 90 := rfl
      rw [ha, hz] at h2
      obtain ⟨lo, hi⟩ := h2
      generalize c.toNat = n at hc lo hi
      interval_cases n <;> exact absurd hc (by decide)
    · rw [if_neg h2] at hc
      exact hc
  · rw [if_neg h1] at hc
    exact absurd hc (htable c (by omega))

theorem suffix_toLower_imp (h : Host)
    (htable : ∀ c : Char, 128 ≤ c.toNat → h.lowerTable c ≠ '.') (name e0 : GoString)
    (hdot : '.' ∉ e0) (hsuf : ('.' :: e0) <:+ ToLower h name) :
    ∃ e, afterLastDot name = some e ∧ ToLower h e = e0 := by
  obtain ⟨p, hp⟩ := hsuf
  unfold ToLower at hp
  obtain ⟨l1, l2, rfl, _, h2⟩ := List.map_eq_append_iff.mp hp.symm
  obtain ⟨a, e, rfl, ha, he⟩ := List.map_eq_cons_iff.mp h2
  have hadot := toLowerRune_eq_dot h htable a ha
  subst hadot
  refine ⟨e, (afterLastDot_eq_some_iff _ _).mpr ⟨l1, rfl, ?_⟩, he⟩
  intro hm
  apply hdot
  rw [← he]
  exact List.mem_map.mpr ⟨'.', hm, toLowerRune_dot h⟩

theorem toLower_suffix_of_afterLastDot (h : Host) (name e : GoString)
    (he : afterLastDot name = some e) : ('.' :: ToLower h e) <:+ ToLower h name := by
  obtain ⟨pre, rfl, _⟩ := (afterLastDot_eq_some_iff _ _).mp he
  refine ⟨ToLower h pre, ?_⟩
  simp [ToLower, toLowerRune_dot]

theorem hasTsExt_iff_ext (h : Host) (path : GoString) :
    hasTsExt h path = true ↔
      ToLower h (Ext h path) = ".ts".toList ∨ ToLower h (Ext h path) = ".tsx".toList := by
  simp [hasTsExt]

theorem hasTsExt_iff_afterLastDot (h : Host) (path : GoString) :
    hasTsExt h path = true ↔
      ∃ e, afterLastDot (fileName h path) = some e ∧
        (ToLower h e = "ts".toList ∨ ToLower h e = "tsx".toList) := by
  rw [hasTsExt_iff_ext, Ext_eq]
  cases hdot : afterLastDot (fileName h path) with
  | none => simp [ToLower]
  | some e =>
    have e1 : ToLower h ('.' :: e) = '.' :: ToLower h e := by
      simp [ToLower, toLowerRune_dot]
    simp only [e1, Option.some.injEq, exists_eq_left']
    constructor
    · rintro (h1 | h1)
      · exact Or.inl (List.cons.inj h1).2
      · exact Or.inr (List.cons.inj h1).2
    · rintro (h1 | h1)
      · exact Or.inl (by rw [h1]; rfl)
      · exact Or.inr (by rw [h1]; rfl)

/-! ## Claims on the walk -/

/-- C7: the filter of the walk selects a path exactly when the lower-cased
extension is `.ts` or `.tsx`, which is exactly when the lower-cased file name
ends in `.ts` or `.tsx`, and exactly when the lower-cased substring after the
last dot of the file name is `ts` or `tsx`; the case table above ASCII is a
parameter, assumed to map no code point to the dot. -/
theorem hasTsExt_iff_name_ends_ts (h : Host)
    (htable : ∀ c : Char, 128 ≤ c.toNat → h.lowerTable c ≠ '.') (path : GoString) :
    (hasTsExt h path = true ↔
      ToLower h (Ext h path) = ".ts".toList ∨ ToLower h (Ext h path) = ".tsx".toList) ∧
    (hasTsExt h path = true ↔
      ".ts".toList <:+ ToLower h (fileName h path) ∨
      ".tsx".toList <:+ ToLower h (fileName h path)) ∧
    (hasTsExt h path = true ↔
      ∃ e, afterLastDot (fileName h path) = some e ∧
        (ToLower h e = "ts".toList ∨ ToLower h e = "tsx".toList)) := by
  refine ⟨hasTsExt_iff_ext h path, ?_, hasTsExt_iff_afterLastDot h path⟩
  rw [hasTsExt_iff_afterLastDot]
  constructor
  · rintro ⟨e, he, h1 | h1⟩
    · left
      have := toLower_suffix_of_afterLastDot h _ e he
      rw [h1] at this
      exact this
    · right
      have := toLower_suffix_of_afterLastDot h _ e he
      rw [h1] at this
      exact this
  · rintro (h1 | h1)
    · obtain ⟨e, he, hl⟩ := suffix_toLower_imp h htable _ "ts".toList (by decide) h1
      exact ⟨e, he, Or.inl hl⟩
    · obtain ⟨e, he, hl⟩ := suffix_toLower_imp h htable _ "tsx".toList (by decide) h1
      exact ⟨e, he, Or.inr hl⟩

/-- C7 on a host with `/` as only separator and a case table that moves
nothing above ASCII: `FOO.TS` is selected, `foo.tsx.bak` is not. -/
theorem hasTsExt_iff_name_ends_ts_witness :
    hasTsExt ⟨false, id⟩ "/src/FOO.TS".toList = true ∧
    ".ts".toList <:+ ToLower ⟨false, id⟩ (fileName ⟨false, id⟩ "/src/FOO.TS".toList) ∧
    hasTsExt ⟨false, id⟩ "FOO.TS".toList = true ∧
    hasTsExt ⟨false, id⟩ "foo.tsx.bak".toList = false ∧
    ¬ (".ts".toList <:+ ToLower ⟨false, id⟩ (fileName ⟨false, id⟩ "foo.tsx.bak".toList) ∨
      ".tsx".toList <:+ ToLower ⟨false, id⟩ (fileName ⟨false, id⟩ "foo.tsx.bak".toList)) :=
  ⟨by decide,
   ((hasTsExt_iff_name_ends_ts ⟨false, id⟩
      (fun c hc e => absurd (show c.toNat = 46 from congrArg Char.toNat e) (by omega))
      "/src/FOO.TS".toList).2.1.mp (by decide)).resolve_right (by decide),
   by decide, by decide, by decide⟩

theorem processFile_fs_cases (fs : FileSys) (env : WriteEnv) (q : GoString) :
    (processFile fs env q).2 = fs ∨ ∃ out, (processFile fs env q).2 = fs.write q out := by
  cases hfile : fs.read q with
  | none => simp [processFile, hfile]
  | some content =>
    cases hscan : scanFile content with
    | none => simp [processFile, hfile, hscan]
    | some lines =>
      cases hno : hasNoCheck lines with
      | true => simp [processFile, hfile, hscan, hno]
      | false =>
        cases hc : env.createOk with
        | false => simp [processFile, hfile, hscan, hno, hc]
        | true =>
          right
          cases hf : env.failAfter with
          | none =>
            exact ⟨writeLines (newLines lines (insertIndex lines)),
              by simp [processFile, hfile, hscan, hno, hc, hf]⟩
          | some n =>
            by_cases hn : n < (writeLines (newLines lines (insertIndex lines))).length
            · exact ⟨(writeLines (newLines lines (insertIndex lines))).take n,
                by simp [processFile, hfile, hscan, hno, hc, hf, hn]⟩
            · exact ⟨writeLines (newLines lines (insertIndex lines)),
                by simp [processFile, hfile, hscan, hno, hc, hf, hn]⟩

theorem processFile_inode (fs : FileSys) (env : WriteEnv) (q : GoString) :
    (processFile fs env q).2.inode = fs.inode := by
  rcases processFile_fs_cases fs env q with h | ⟨out, h⟩
  · rw [h]
  · rw [h]; rfl

theorem processFile_read_other (fs : FileSys) (env : WriteEnv) (q p : GoString)
    (hpq : fs.inode p ≠ fs.inode q) : (processFile fs env q).2.read p = fs.read p := by
  rcases processFile_fs_cases fs env q with h | ⟨out, h⟩
  · rw [h]
  · rw [h]
    simp [FileSys.read, FileSys.write, Function.update, hpq]

theorem walkFn_inode (h : Host) (env : GoString → WriteEnv) (st : WalkState)
    (e : WalkEntry) : (walkFn h env st e).fs.inode = st.fs.inode := by
  unfold walkFn
  cases herr : e.err with
  | true => rfl
  | false =>
    cases hdir : e.isDir with
    | true => rfl
    | false =>
      cases hext : hasTsExt h e.path with
      | false => rfl
      | true =>
        have ho := processFile_inode st.fs (env e.path) e.path
        cases hr : (processFile st.fs (env e.path) e.path).1 with
        | true => simpa [hr] using ho
        | false => simpa [hr] using ho

theorem walkFn_read_other (h : Host) (env : GoString → WriteEnv) (st : WalkState)
    (e : WalkEntry) (p : GoString)
    (hp : ¬ (st.fs.inode e.path = st.fs.inode p ∧ e.err = false ∧ e.isDir = false ∧
      hasTsExt h e.path = true)) :
    (walkFn h env st e).fs.read p = st.fs.read p := by
  unfold walkFn
  cases herr : e.err with
  | true => rfl
  | false =>
    cases hdir : e.isDir with
    | true => rfl
    | false =>
      cases hext : hasTsExt h e.path with
      | false => rfl
      | true =>
        have hne : st.fs.inode p ≠ st.fs.inode e.path := by
          intro hpe
          exact hp ⟨hpe.symm, herr, hdir, hext⟩
        have ho := processFile_read_other st.fs (env e.path) e.path p hne
        cases hr : (processFile st.fs (env e.path) e.path).1 with
        | true => simpa [hr] using ho
        | false => simpa [hr] using ho

theorem walkFn_mem (h : Host) (env : GoString → WriteEnv) (st : WalkState)
    (e : WalkEntry) (p : GoString) :
    p ∈ (walkFn h env st e).processedFiles ++ (walkFn h env st e).errorFiles ↔
      p ∈ st.processedFiles ++ st.errorFiles ∨
      (e.path = p ∧ e.err = false ∧ e.isDir = false ∧ hasTsExt h p = true) := by
  unfold walkFn
  cases herr : e.err with
  | true => simp
  | false =>
    cases hdir : e.isDir with
    | true => simp
    | false =>
      cases hext : hasTsExt h e.path with
      | false =>
        simp only [Bool.false_eq_true, if_false, true_and]
        constructor
        · exact Or.inl
        · rintro (hm | ⟨rfl, hx⟩)
          · exact hm
          · rw [hext] at hx; cases hx
      | true =>
        simp only [Bool.false_eq_true, if_false, if_true, true_and]
        split
        · simp only [List.mem_append, List.mem_singleton]
          constructor
          · rintro ((hm | rfl) | hm)
            · exact Or.inl (Or.inl hm)
            · exact Or.inr ⟨rfl, hext⟩
            · exact Or.inl (Or.inr hm)
          · rintro ((hm | hm) | ⟨rfl, _⟩)
            · exact Or.inl (Or.inl hm)
            · exact Or.inr hm
            · exact Or.inl (Or.inr rfl)
        · simp only [List.mem_append, List.mem_singleton]
          constructor
          · rintro (hm | hm | rfl)
            · exact Or.inl (Or.inl hm)
            · exact Or.inl (Or.inr hm)
            · exact Or.inr ⟨rfl, hext⟩
          · rintro ((hm | hm) | ⟨rfl, _⟩)
            · exact Or.inl hm
            · exact Or.inr (Or.inl hm)
            · exact Or.inr (Or.inr rfl)

theorem walk_read_other (h : Host) (env : GoString → WriteEnv) (entries : List WalkEntry)
    (st : WalkState) (p : GoString)
    (hp : ¬ ∃ e ∈ entries, st.fs.inode e.path = st.fs.inode p ∧ e.err = false ∧
      e.isDir = false ∧ hasTsExt h e.path = true) :
    (walk h env entries st).fs.read p = st.fs.read p := by
  induction entries generalizing st with
  | nil => rfl
  | cons e t ih =>
    have h1 : (walk h env (e :: t) st) = walk h env t (walkFn h env st e) := rfl
    have hstep := walkFn_read_other h env st e p
      (fun hc => hp ⟨e, List.mem_cons_self _ _, hc⟩)
    rw [h1, ih (walkFn h env st e) ?_, hstep]
    rintro ⟨x, hx, hc⟩
    rw [walkFn_inode] at hc
    exact hp ⟨x, List.mem_cons_of_mem _ hx, hc⟩

theorem walk_mem (h : Host) (env : GoString → WriteEnv) (entries : List WalkEntry)
    (st : WalkState) (p : GoString) :
    p ∈ (walk h env entries st).processedFiles ++ (walk h env entries st).errorFiles ↔
      p ∈ st.processedFiles ++ st.errorFiles ∨
      ∃ e ∈ entries, e.path = p ∧ e.err = false ∧ e.isDir = false ∧
        hasTsExt h p = true := by
  induction entries generalizing st with
  | nil => simp [walk]
  | cons e t ih =>
    have h1 : (walk h env (e :: t) st) = walk h env t (walkFn h env st e) := rfl
    rw [h1, ih, walkFn_mem]
    constructor
    · rintro ((hm | hc) | ⟨x, hx, hc⟩)
      · exact Or.inl hm
      · exact Or.inr ⟨e, List.mem_cons_self _ _, hc⟩
      · exact Or.inr ⟨x, List.mem_cons_of_mem _ hx, hc⟩
    · rintro (hm | ⟨x, hx, hc⟩)
      · exact Or.inl (Or.inl hm)
      · rcases List.mem_cons.mp hx with rfl | hx
        · exact Or.inl (Or.inr hc)
        · exact Or.inr ⟨x, hx, hc⟩

/-- C8 fails on a tree with a link: `link.ts` is a symbolic link to `c.js`, the
walk hands `link.ts` to `processFile`, and `c.js`, which does not pass the
filter, holds the marker after the run. -/
theorem walk_rewrites_linked_file :
    hasTsExt sampleHost "/w/c.js".toList = false ∧
    linkedFs.read "/w/c.js".toList = some "var z;\n".toList ∧
    (walk sampleHost (fun _ => WriteEnv.ok) linkedEntries ⟨linkedFs, [], []⟩).processedFiles =
      ["/w/link.ts".toList] ∧
    (walk sampleHost (fun _ => WriteEnv.ok) linkedEntries ⟨linkedFs, [], []⟩).errorFiles = [] ∧
    (walk sampleHost (fun _ => WriteEnv.ok) linkedEntries ⟨linkedFs, [], []⟩).fs.read
      "/w/c.js".toList = some (tsNoCheckComment ++ "\nvar z;\n".toList) := by
  decide

/-- C8 as amended: over a walk of any entries, the paths handed to `processFile`
(those added to `processedFiles` or `errorFiles`) are exactly the paths of
entries that are no directory, carry no error and pass the `.ts`/`.tsx` filter;
a file that no such entry's path leads to has after the walk the content it had
before; and a file that no other visited path leads to and whose path does not
pass the filter keeps its content. -/
theorem walk_changes_only_processed_files (h : Host) (env : GoString → WriteEnv)
    (entries : List WalkEntry) (fs : FileSys) :
    (∀ p, p ∈ (walk h env entries ⟨fs, [], []⟩).processedFiles ++
        (walk h env entries ⟨fs, [], []⟩).errorFiles ↔
      ∃ e ∈ entries, e.path = p ∧ e.err = false ∧ e.isDir = false ∧
        hasTsExt h p = true) ∧
    (∀ p, (¬ ∃ e ∈ entries, fs.inode e.path = fs.inode p ∧ e.err = false ∧
        e.isDir = false ∧ hasTsExt h e.path = true) →
      (walk h env entries ⟨fs, [], []⟩).fs.read p = fs.read p) ∧
    (∀ p, (∀ e ∈ entries, fs.inode e.path = fs.inode p → e.path = p) →
      hasTsExt h p = false →
      (walk h env entries ⟨fs, [], []⟩).fs.read p = fs.read p) := by
  refine ⟨fun p => ?_, fun p hp => ?_, fun p hlink hp => ?_⟩
  · simpa using walk_mem h env entries ⟨fs, [], []⟩ p
  · exact walk_read_other h env entries ⟨fs, [], []⟩ p hp
  · apply walk_read_other h env entries ⟨fs, [], []⟩ p
    rintro ⟨e, he, hino, _, _, hx⟩
    rw [hlink e he hino, hp] at hx
    cases hx

/-- C8 as amended, on the sample tree without links: `a.ts` and `b.tsx` are the
two processed files, none fails, `a.ts` gets the marker, `b.tsx` and `c.js`
keep their content. -/
theorem walk_changes_only_processed_files_witness :
    (walk sampleHost (fun _ => WriteEnv.ok) sampleEntries ⟨sampleFs, [], []⟩).processedFiles =
      ["/w/a.ts".toList, "/w/b.tsx".toList] ∧
    (walk sampleHost (fun _ => WriteEnv.ok) sampleEntries ⟨sampleFs, [], []⟩).errorFiles = [] ∧
    (walk sampleHost (fun _ => WriteEnv.ok) sampleEntries ⟨sampleFs, [], []⟩).fs.read
      "/w/a.ts".toList = some (tsNoCheckComment ++ "\nconst x = 1;\n".toList) ∧
    (walk sampleHost (fun _ => WriteEnv.ok) sampleEntries ⟨sampleFs, [], []⟩).fs.read
      "/w/b.tsx".toList = some (tsNoCheckComment ++ "\nlet y;\n".toList) ∧
    (walk sampleHost (fun _ => WriteEnv.ok) sampleEntries ⟨sampleFs, [], []⟩).fs.read
      "/w/c.js".toList = sampleFs.read "/w/c.js".toList ∧
    sampleFs.read "/w/c.js".toList = some "var z;\n".toList :=
  ⟨by decide, by decide, by decide, by decide,
   (walk_changes_only_processed_files sampleHost (fun _ => WriteEnv.ok) sampleEntries
      sampleFs).2.2 "/w/c.js".toList (by decide) (by decide),
   by decide⟩

end RecursiveFileCommentary
